import Mathlib

/-!
Verification development for the two balanced-search-tree engines of the
repository: the AVL engine (src/AVL.rs) and the Red-Black engine
(src/RBTree.rs), shallowly embedded as pure Lean functions.

The AVL engine is embedded as an inductive tree carrying the stored `height`
field (an `i32` in the source; heights stay tiny so it is modelled as `Int`
without wrap-around).  The mutating Rust functions become functions from
trees to trees; the `InnerResult` / `DeleteValue` sum types are carried over
verbatim.

The Red-Black engine mutates a pointer graph (`Rc<RefCell<...>>` nodes with
parent back-references).  It is embedded as a pure tree plus an explicit
path (list of directions from the root) standing for the pointer identity of
the node under focus; walking to the parent is dropping the last direction,
rotations are local rewrites at a path.  This matches the source graph for
the trees the engine actually manipulates (distinct keys).
-/

namespace AVL

/-- AVL tree of the source: `AvlTreeNode<T> = Option<Box<TreeNode<T>>>` with
fields `val`, `height`, `left`, `right`.  `nil` is `None`. -/
inductive Avl where
  | nil : Avl
  | node (val : Int) (h : Int) (left right : Avl) : Avl
deriving DecidableEq

/-- `AvlTree::height`: the stored height field, 0 for `None`. -/
def height : Avl → Int
  | .nil => 0
  | .node _ h _ _ => h

/-- `__AvlTree::update_height`: recompute the root's stored height from the
children's stored heights. -/
def update_height : Avl → Avl
  | .nil => .nil
  | .node v _ l r => .node v (max (height l) (height r) + 1) l r

/-- `__AvlTree::balance_factor`: left stored height minus right stored height. -/
def balance_factor : Avl → Int
  | .nil => 0
  | .node _ _ l r => height l - height r

/-- `__AvlTree::right_rotate`.  Net effect of the source's take/swap dance:
`y(x(a,b),c)` becomes `x(a, y(b,c))` with both rewritten nodes' heights
recomputed (the `unreachable!()` shapes are left unchanged). -/
def right_rotate : Avl → Avl
  | .node vy _ (.node vx _ a b) c =>
      .node vx (max (height a) (height (Avl.node vy (max (height b) (height c) + 1) b c)) + 1)
        a (.node vy (max (height b) (height c) + 1) b c)
  | t => t

/-- `__AvlTree::left_rotate`: mirror image of `right_rotate`. -/
def left_rotate : Avl → Avl
  | .node vy _ a (.node vx _ b c) =>
      .node vx (max (height (Avl.node vy (max (height a) (height b) + 1) a b)) (height c) + 1)
        (.node vy (max (height a) (height b) + 1) a b) c
  | t => t

/-- `__AvlTree::rotate_lr`: left-rotate the left child, then right-rotate. -/
def rotate_lr : Avl → Avl
  | .node v h l r => right_rotate (.node v h (left_rotate l) r)
  | .nil => .nil

/-- `__AvlTree::rotate_rl`: right-rotate the right child, then left-rotate. -/
def rotate_rl : Avl → Avl
  | .node v h l r => left_rotate (.node v h l (right_rotate r))
  | .nil => .nil

@[simp] theorem height_nil : height .nil = 0 := rfl

@[simp] theorem height_node {v h l r} : height (.node v h l r) = h := rfl

@[simp] theorem balance_factor_nil : balance_factor .nil = 0 := rfl

@[simp] theorem balance_factor_node {v h l r} :
    balance_factor (.node v h l r) = height l - height r := rfl

theorem update_height_node {v h l r} :
    update_height (.node v h l r) = .node v (max (height l) (height r) + 1) l r := rfl

theorem right_rotate_eq {vy hy vx hx a b c} :
    right_rotate (.node vy hy (.node vx hx a b) c) =
      .node vx (max (height a) (height (Avl.node vy (max (height b) (height c) + 1) b c)) + 1)
        a (.node vy (max (height b) (height c) + 1) b c) := rfl

theorem left_rotate_eq {vy hy vx hx a b c} :
    left_rotate (.node vy hy a (.node vx hx b c)) =
      .node vx (max (height (Avl.node vy (max (height a) (height b) + 1) a b)) (height c) + 1)
        (.node vy (max (height a) (height b) + 1) a b) c := rfl

/-- The source's `InnerResult` signal propagated by `do_insert`/`do_delete`. -/
inductive InnerResult where
  | Left | Right | Unknown | Balanced
deriving DecidableEq

/-- The rebalancing step of `do_insert` after an insertion in the left
subtree returned a non-`Balanced` signal (`AVL.rs` lines 197-216). -/
def fixup_left_ins (s : Avl) (res : InnerResult) : Avl × InnerResult :=
  if balance_factor s = 2 then
    (match res with
     | .Left => right_rotate s
     | .Right => rotate_lr s
     | _ => s,   -- unreachable!() in the source
     .Balanced)
  else if height s = height (update_height s) then (update_height s, .Balanced)
  else (update_height s, .Left)

/-- The rebalancing step of `do_insert` after an insertion in the right
subtree returned a non-`Balanced` signal (`AVL.rs` lines 222-238). -/
def fixup_right_ins (s : Avl) (res : InnerResult) : Avl × InnerResult :=
  if balance_factor s = -2 then
    (match res with
     | .Left => rotate_rl s
     | .Right => left_rotate s
     | _ => s,   -- unreachable!() in the source
     .Balanced)
  else if height s = height (update_height s) then (update_height s, .Balanced)
  else (update_height s, .Right)

/-- `__AvlTree::do_insert`.  Duplicates are a no-op returning `Balanced`. -/
def do_insert (t : Avl) (v : Int) : Avl × InnerResult :=
  match t with
  | .nil => (.node v 1 .nil .nil, .Unknown)
  | .node rv rh l r =>
    if v = rv then (.node rv rh l r, .Balanced)
    else if v < rv then
      match do_insert l v with
      | (l', .Balanced) => (.node rv rh l' r, .Balanced)
      | (l', res) => fixup_left_ins (.node rv rh l' r) res
    else
      match do_insert r v with
      | (r', .Balanced) => (.node rv rh l r', .Balanced)
      | (r', res) => fixup_right_ins (.node rv rh l r') res

/-- `AvlTree::insert` (discards the `InnerResult`). -/
def insert (t : Avl) (v : Int) : Avl := (do_insert t v).1

/-- The claim's invariant: every node's stored height equals
`1 + max(height left, height right)` and the subtree heights differ by at
most one (absent children have height 0). -/
def Inv : Avl → Prop
  | .nil => True
  | .node _ h l r =>
      h = 1 + max (height l) (height r) ∧ (height l - height r).natAbs ≤ 1 ∧ Inv l ∧ Inv r

@[simp] theorem Inv_nil : Inv .nil := trivial

theorem Inv_node {v h l r} :
    Inv (.node v h l r) ↔
      h = 1 + max (height l) (height r) ∧ (height l - height r).natAbs ≤ 1 ∧ Inv l ∧ Inv r :=
  Iff.rfl

theorem height_nonneg : ∀ t, Inv t → 0 ≤ height t := by
  intro t ht
  induction t with
  | nil => simp [height]
  | node v h l r ihl ihr =>
    rcases ht with ⟨hh, hb, hl, hr⟩
    have h1 := ihl hl
    have h2 := ihr hr
    simp only [height] at *
    omega

/-- Behaviour of `do_insert` on invariant-satisfying trees: the invariant is
preserved, `Balanced` means the height did not change, `Left`/`Right` mean the
height grew by one and report the heavier side, `Unknown` means a leaf was
just created in an empty slot. -/
theorem do_insert_spec (v : Int) :
    ∀ t : Avl, Inv t →
      Inv (do_insert t v).1 ∧
      ((do_insert t v).2 = .Balanced → height (do_insert t v).1 = height t) ∧
      ((do_insert t v).2 = .Left →
        height (do_insert t v).1 = height t + 1 ∧ balance_factor (do_insert t v).1 = 1) ∧
      ((do_insert t v).2 = .Right →
        height (do_insert t v).1 = height t + 1 ∧ balance_factor (do_insert t v).1 = -1) ∧
      ((do_insert t v).2 = .Unknown → height (do_insert t v).1 = 1 ∧ height t = 0) := by
  intro t
  induction t with
  | nil =>
    intro _
    exact ⟨⟨by simp, by simp, trivial, trivial⟩, fun hc => absurd hc (by simp [do_insert]),
      fun hc => absurd hc (by simp [do_insert]), fun hc => absurd hc (by simp [do_insert]),
      fun _ => ⟨rfl, rfl⟩⟩
  | node rv rh l r ihl ihr =>
    intro ht
    rcases Inv_node.mp ht with ⟨hh, hb, hl, hr⟩
    by_cases h1 : v = rv
    · have hstep : do_insert (Avl.node rv rh l r) v = (Avl.node rv rh l r, .Balanced) := by
        simp [do_insert, h1]
      rw [hstep]
      exact ⟨ht, fun _ => rfl, fun hc => absurd hc (by simp), fun hc => absurd hc (by simp),
        fun hc => absurd hc (by simp)⟩
    · by_cases h2 : v < rv
      · -- insertion goes into the left subtree
        rcases hdi : do_insert l v with ⟨l', res⟩
        obtain ⟨hi1, hi2, hi3, hi4, hi5⟩ := ihl hl
        simp only [hdi] at hi1 hi2 hi3 hi4 hi5
        cases res with
        | Balanced =>
          have hsame := hi2 rfl
          simp only [do_insert, if_neg h1, if_pos h2, hdi]
          refine ⟨⟨?_, ?_, hi1, hr⟩, fun _ => rfl, by simp, by simp, by simp⟩ <;>
            (try simp only [height_node, balance_factor_node]) <;> omega
        | Left =>
          obtain ⟨hgrow, hbf1⟩ := hi3 rfl
          cases l' with
          | nil => simp at hbf1
          | node x hx a b =>
            obtain ⟨ih1, ih2, iha, ihb⟩ := Inv_node.mp hi1
            simp only [height_node, balance_factor_node] at hgrow hbf1
            simp only [do_insert, if_neg h1, if_pos h2, hdi]
            by_cases hbf : hx - height r = 2
            · simp only [fixup_left_ins, balance_factor_node, height_node, if_pos hbf,
                right_rotate_eq]
              refine ⟨⟨?_, ?_, iha, ?_, ?_, ihb, hr⟩, fun _ => ?_, by simp, by simp, by simp⟩ <;>
                (try simp only [height_node, balance_factor_node]) <;> omega
            · simp only [fixup_left_ins, balance_factor_node, height_node, update_height_node,
                if_neg hbf]
              by_cases hcmp : rh = max hx (height r) + 1
              · simp only [if_pos hcmp]
                refine ⟨⟨?_, ?_, hi1, hr⟩, fun _ => ?_, by simp, by simp, by simp⟩ <;>
                  (try simp only [height_node, balance_factor_node]) <;> omega
              · simp only [if_neg hcmp]
                refine ⟨⟨?_, ?_, hi1, hr⟩, by simp, fun _ => ⟨?_, ?_⟩, by simp, by simp⟩ <;>
                  (try simp only [height_node, balance_factor_node]) <;> omega
        | Right =>
          obtain ⟨hgrow, hbf1⟩ := hi4 rfl
          cases l' with
          | nil => simp at hbf1
          | node x hx a b =>
            obtain ⟨ih1, ih2, iha, ihb⟩ := Inv_node.mp hi1
            simp only [height_node, balance_factor_node] at hgrow hbf1
            simp only [do_insert, if_neg h1, if_pos h2, hdi]
            by_cases hbf : hx - height r = 2
            · cases b with
              | nil =>
                exfalso
                have := height_nonneg a iha
                simp only [height_nil] at hbf1
                omega
              | node w hw m1 m2 =>
                obtain ⟨jh1, jh2, jm1, jm2⟩ := Inv_node.mp ihb
                simp only [height_node] at hbf1 ih1 ih2
                simp only [fixup_left_ins, balance_factor_node, height_node, if_pos hbf,
                  rotate_lr, left_rotate_eq, right_rotate_eq]
                refine ⟨⟨?_, ?_, ⟨?_, ?_, iha, jm1⟩, ?_, ?_, jm2, hr⟩,
                  fun _ => ?_, by simp, by simp, by simp⟩ <;>
                  (try simp only [height_node, balance_factor_node]) <;> omega
            · simp only [fixup_left_ins, balance_factor_node, height_node, update_height_node,
                if_neg hbf]
              by_cases hcmp : rh = max hx (height r) + 1
              · simp only [if_pos hcmp]
                refine ⟨⟨?_, ?_, hi1, hr⟩, fun _ => ?_, by simp, by simp, by simp⟩ <;>
                  (try simp only [height_node, balance_factor_node]) <;> omega
              · simp only [if_neg hcmp]
                refine ⟨⟨?_, ?_, hi1, hr⟩, by simp, fun _ => ⟨?_, ?_⟩, by simp, by simp⟩ <;>
                  (try simp only [height_node, balance_factor_node]) <;> omega
        | Unknown =>
          obtain ⟨hone, hzero⟩ := hi5 rfl
          have hrnn := height_nonneg r hr
          simp only [do_insert, if_neg h1, if_pos h2, hdi]
          by_cases hbf : height l' - height r = 2
          · exfalso; omega
          · simp only [fixup_left_ins, balance_factor_node, height_node, update_height_node,
              if_neg hbf]
            by_cases hcmp : rh = max (height l') (height r) + 1
            · simp only [if_pos hcmp]
              refine ⟨⟨?_, ?_, hi1, hr⟩, fun _ => ?_, by simp, by simp, by simp⟩ <;>
                (try simp only [height_node, balance_factor_node]) <;> omega
            · simp only [if_neg hcmp]
              refine ⟨⟨?_, ?_, hi1, hr⟩, by simp, fun _ => ⟨?_, ?_⟩, by simp, by simp⟩ <;>
                (try simp only [height_node, balance_factor_node]) <;> omega
      · -- insertion goes into the right subtree
        rcases hdi : do_insert r v with ⟨r', res⟩
        obtain ⟨hi1, hi2, hi3, hi4, hi5⟩ := ihr hr
        simp only [hdi] at hi1 hi2 hi3 hi4 hi5
        cases res with
        | Balanced =>
          have hsame := hi2 rfl
          simp only [do_insert, if_neg h1, if_neg h2, hdi]
          refine ⟨⟨?_, ?_, hl, hi1⟩, fun _ => rfl, by simp, by simp, by simp⟩ <;>
            (try simp only [height_node, balance_factor_node]) <;> omega
        | Left =>
          obtain ⟨hgrow, hbf1⟩ := hi3 rfl
          cases r' with
          | nil => simp at hbf1
          | node x hx a b =>
            obtain ⟨ih1, ih2, iha, ihb⟩ := Inv_node.mp hi1
            simp only [height_node, balance_factor_node] at hgrow hbf1
            simp only [do_insert, if_neg h1, if_neg h2, hdi]
            by_cases hbf : height l - hx = -2
            · cases a with
              | nil =>
                exfalso
                have := height_nonneg b ihb
                simp only [height_nil] at hbf1
                omega
              | node w hw m1 m2 =>
                obtain ⟨jh1, jh2, jm1, jm2⟩ := Inv_node.mp iha
                simp only [height_node] at hbf1 ih1 ih2
                simp only [fixup_right_ins, balance_factor_node, height_node, if_pos hbf,
                  rotate_rl, right_rotate_eq, left_rotate_eq]
                refine ⟨⟨?_, ?_, ⟨?_, ?_, hl, jm1⟩, ?_, ?_, jm2, ihb⟩,
                  fun _ => ?_, by simp, by simp, by simp⟩ <;>
                  (try simp only [height_node, balance_factor_node]) <;> omega
            · simp only [fixup_right_ins, balance_factor_node, height_node, update_height_node,
                if_neg hbf]
              by_cases hcmp : rh = max (height l) hx + 1
              · simp only [if_pos hcmp]
                refine ⟨⟨?_, ?_, hl, hi1⟩, fun _ => ?_, by simp, by simp, by simp⟩ <;>
                  (try simp only [height_node, balance_factor_node]) <;> omega
              · simp only [if_neg hcmp]
                refine ⟨⟨?_, ?_, hl, hi1⟩, by simp, by simp, fun _ => ⟨?_, ?_⟩, by simp⟩ <;>
                  (try simp only [height_node, balance_factor_node]) <;> omega
        | Right =>
          obtain ⟨hgrow, hbf1⟩ := hi4 rfl
          cases r' with
          | nil => simp at hbf1
          | node x hx a b =>
            obtain ⟨ih1, ih2, iha, ihb⟩ := Inv_node.mp hi1
            simp only [height_node, balance_factor_node] at hgrow hbf1
            simp only [do_insert, if_neg h1, if_neg h2, hdi]
            by_cases hbf : height l - hx = -2
            · simp only [fixup_right_ins, balance_factor_node, height_node, if_pos hbf,
                left_rotate_eq]
              refine ⟨⟨?_, ?_, ⟨?_, ?_, hl, iha⟩, ihb⟩, fun _ => ?_, by simp, by simp, by simp⟩ <;>
                (try simp only [height_node, balance_factor_node]) <;> omega
            · simp only [fixup_right_ins, balance_factor_node, height_node, update_height_node,
                if_neg hbf]
              by_cases hcmp : rh = max (height l) hx + 1
              · simp only [if_pos hcmp]
                refine ⟨⟨?_, ?_, hl, hi1⟩, fun _ => ?_, by simp, by simp, by simp⟩ <;>
                  (try simp only [height_node, balance_factor_node]) <;> omega
              · simp only [if_neg hcmp]
                refine ⟨⟨?_, ?_, hl, hi1⟩, by simp, by simp, fun _ => ⟨?_, ?_⟩, by simp⟩ <;>
                  (try simp only [height_node, balance_factor_node]) <;> omega
        | Unknown =>
          obtain ⟨hone, hzero⟩ := hi5 rfl
          have hlnn := height_nonneg l hl
          simp only [do_insert, if_neg h1, if_neg h2, hdi]
          by_cases hbf : height l - height r' = -2
          · exfalso; omega
          · simp only [fixup_right_ins, balance_factor_node, height_node, update_height_node,
              if_neg hbf]
            by_cases hcmp : rh = max (height l) (height r') + 1
            · simp only [if_pos hcmp]
              refine ⟨⟨?_, ?_, hl, hi1⟩, fun _ => ?_, by simp, by simp, by simp⟩ <;>
                (try simp only [height_node, balance_factor_node]) <;> omega
            · simp only [if_neg hcmp]
              refine ⟨⟨?_, ?_, hl, hi1⟩, by simp, by simp, fun _ => ⟨?_, ?_⟩, by simp⟩ <;>
                (try simp only [height_node, balance_factor_node]) <;> omega

/-- The source's `DeleteValue<T>` selector: match the minimum node, the
maximum node, a given value, or carry the deleted node back out. -/
inductive DeleteValue where
  | Min | Max
  | Val (v : Int)
  | Del (t : Avl)
deriving DecidableEq

/-- `isNil t = (t == None)`. -/
def isNil : Avl → Bool
  | .nil => true
  | _ => false

@[simp] theorem isNil_nil : isNil .nil = true := rfl

@[simp] theorem isNil_node {v h l r} : isNil (.node v h l r) = false := rfl

/-- `PartialEq<Box<TreeNode<T>>> for DeleteValue<T>`: `Min` matches a node
with no left child, `Max` one with no right child, `Val v` a node with value
`v`, `Del` matches nothing. -/
def dv_matches (dv : DeleteValue) (rv : Int) (l r : Avl) : Bool :=
  match dv with
  | .Min => isNil l
  | .Max => isNil r
  | .Val v => v = rv
  | .Del _ => false

/-- `PartialOrd<Box<TreeNode<T>>> for DeleteValue<T>`, specialised to the
`val < *root` test of `do_delete`: `Min` is less than everything, `Max` and
`Del` than nothing. -/
def dv_lt (dv : DeleteValue) (rv : Int) : Bool :=
  match dv with
  | .Min => true
  | .Max => false
  | .Val v => v < rv
  | .Del _ => false

/-- The rebalancing step of `do_delete` after a deletion in the left subtree
returned `Unknown` (`AVL.rs` lines 298-309): on balance factor `-2` the
rotation is picked by comparing the right child's grandchild heights (ties
take the single left rotation), otherwise only the height is recomputed. -/
def rebalance_left_del (s : Avl) : Avl :=
  if balance_factor s = -2 then
    match s with
    | .node _ _ _ (.node _ _ rl rr) =>
        if height rl > height rr then rotate_rl s else left_rotate s
    | _ => s   -- the source's unwrap() cannot fail here
  else update_height s

/-- The rebalancing step of `do_delete` after a deletion in the right subtree
returned `Unknown` (`AVL.rs` lines 316-327): on balance factor `2` ties take
the single right rotation. -/
def rebalance_right_del (s : Avl) : Avl :=
  if balance_factor s = 2 then
    match s with
    | .node _ _ (.node _ _ ll lr) _ =>
        if height ll ≥ height lr then right_rotate s else rotate_lr s
    | _ => s   -- the source's unwrap() cannot fail here
  else update_height s

/-- The final height test shared by every non-short-circuiting exit of
`do_delete` (`AVL.rs` line 332): `Balanced` iff the subtree still has the
stored height it had on entry. -/
def wrap_height_check (rh : Int) (p : Avl × DeleteValue) : Avl × DeleteValue × InnerResult :=
  (p.1, p.2, if height p.1 = rh then .Balanced else .Unknown)

/-- `__AvlTree::do_delete`.  Returns the new subtree, the final value of the
in-out `val` argument (a `Del` carrying the removed node) and the
`InnerResult` signal.  In the two-children case the replacement is popped
from the taller child subtree (`Max` of the left if strictly taller, else
`Min` of the right) and the values are swapped. -/
def do_delete (t : Avl) (dv : DeleteValue) : Avl × DeleteValue × InnerResult :=
  match t with
  | .nil => (.nil, .Del .nil, .Balanced)
  | .node rv rh l r =>
    if dv_matches dv rv l r then
      wrap_height_check rh
        (if isNil l then
          (update_height r, DeleteValue.Del (.node rv rh .nil .nil))
        else if isNil r then
          (update_height l, DeleteValue.Del (.node rv rh .nil .nil))
        else if height l > height r then
          match do_delete l .Max with
          | (l', .Del (.node mv mh ml mr), _) =>
              (update_height (.node mv rh l' r), DeleteValue.Del (.node rv mh ml mr))
          | (l', dv', _) => (update_height (.node rv rh l' r), dv')   -- unreachable!()
        else
          match do_delete r .Min with
          | (r', .Del (.node mv mh ml mr), _) =>
              (update_height (.node mv rh l r'), DeleteValue.Del (.node rv mh ml mr))
          | (r', dv', _) => (update_height (.node rv rh l r'), dv'))  -- unreachable!()
    else if dv_lt dv rv then
      match do_delete l dv with
      | (l', dv', .Balanced) => (.node rv rh l' r, dv', .Balanced)
      | (l', dv', _) => wrap_height_check rh (rebalance_left_del (.node rv rh l' r), dv')
    else
      match do_delete r dv with
      | (r', dv', .Balanced) => (.node rv rh l r', dv', .Balanced)
      | (r', dv', _) => wrap_height_check rh (rebalance_right_del (.node rv rh l r'), dv')

/-- `AvlTree::delete`: wraps the value in `Val`, runs `do_delete`, keeps the
mutated tree and returns the removed node. -/
def delete (t : Avl) (v : Int) : Avl × Avl :=
  match do_delete t (.Val v) with
  | (t', .Del x, _) => (t', x)
  | (t', _, _) => (t', .nil)   -- unreachable!() in the source

end AVL

section DeleteTests

example : (AVL.delete (.node 2 2 (.node 1 1 .nil .nil) (.node 3 1 .nil .nil)) 2).1
    = .node 3 2 (.node 1 1 .nil .nil) .nil := by decide

example : (AVL.delete (.node 2 2 (.node 1 1 .nil .nil) (.node 3 1 .nil .nil)) 2).2
    = .node 2 1 .nil .nil := by decide

example : (AVL.delete (.node 2 2 (.node 1 1 .nil .nil) (.node 3 1 .nil .nil)) 1).1
    = .node 2 2 .nil (.node 3 1 .nil .nil) := by decide

end DeleteTests

namespace AVL

theorem update_height_inv {t : Avl} (ht : Inv t) : update_height t = t := by
  cases t with
  | nil => rfl
  | node v h l r =>
    obtain ⟨hh, -, -, -⟩ := Inv_node.mp ht
    rw [update_height_node, hh]
    congr 1
    omega

theorem rotate_lr_eq {v h l r} :
    rotate_lr (.node v h l r) = right_rotate (.node v h (left_rotate l) r) := rfl

theorem rotate_rl_eq {v h l r} :
    rotate_rl (.node v h l r) = left_rotate (.node v h l (right_rotate r)) := rfl

theorem rebalance_left_del_bf {rv rh : Int} {l' : Avl} {rv2 rh2 : Int} {rl rr : Avl}
    (hbf : balance_factor (Avl.node rv rh l' (.node rv2 rh2 rl rr)) = -2) :
    rebalance_left_del (.node rv rh l' (.node rv2 rh2 rl rr)) =
      if height rl > height rr then rotate_rl (Avl.node rv rh l' (.node rv2 rh2 rl rr))
      else left_rotate (Avl.node rv rh l' (.node rv2 rh2 rl rr)) := by
  unfold rebalance_left_del
  rw [if_pos hbf]

theorem rebalance_left_del_nbf {v h : Int} {l r : Avl}
    (hbf : ¬ balance_factor (Avl.node v h l r) = -2) :
    rebalance_left_del (.node v h l r) = update_height (.node v h l r) := by
  unfold rebalance_left_del
  rw [if_neg hbf]

theorem rebalance_right_del_bf {rv rh : Int} {lv2 lh2 : Int} {ll lr r : Avl}
    (hbf : balance_factor (Avl.node rv rh (.node lv2 lh2 ll lr) r) = 2) :
    rebalance_right_del (.node rv rh (.node lv2 lh2 ll lr) r) =
      if height ll ≥ height lr then right_rotate (Avl.node rv rh (.node lv2 lh2 ll lr) r)
      else rotate_lr (Avl.node rv rh (.node lv2 lh2 ll lr) r) := by
  unfold rebalance_right_del
  rw [if_pos hbf]

theorem rebalance_right_del_nbf {v h : Int} {l r : Avl}
    (hbf : ¬ balance_factor (Avl.node v h l r) = 2) :
    rebalance_right_del (.node v h l r) = update_height (.node v h l r) := by
  unfold rebalance_right_del
  rw [if_neg hbf]

/-- Specification of the `wrap_height_check` exit. -/
theorem wrap_height_check_spec (rh : Int) (t1 : Avl) (d : DeleteValue) (hInv : Inv t1)
    (hor : height t1 = rh ∨ height t1 + 1 = rh) :
    Inv (wrap_height_check rh (t1, d)).1 ∧
    ((wrap_height_check rh (t1, d)).2.2 = .Balanced →
      height (wrap_height_check rh (t1, d)).1 = rh) ∧
    ((wrap_height_check rh (t1, d)).2.2 = .Unknown →
      height (wrap_height_check rh (t1, d)).1 + 1 = rh) ∧
    ((wrap_height_check rh (t1, d)).2.2 = .Balanced ∨
     (wrap_height_check rh (t1, d)).2.2 = .Unknown) := by
  have hw : wrap_height_check rh (t1, d) =
      (t1, d, if height t1 = rh then .Balanced else .Unknown) := rfl
  rw [hw]
  by_cases hc : height t1 = rh
  · rw [if_pos hc]
    exact ⟨hInv, fun _ => hc, fun hcon => absurd hcon (by simp), Or.inl rfl⟩
  · rw [if_neg hc]
    rcases hor with h | h
    · exact absurd h hc
    · exact ⟨hInv, fun hcon => absurd hcon (by simp), fun _ => h, Or.inr rfl⟩

/-- Behaviour of `do_delete` on invariant-satisfying trees: the invariant is
preserved, the result is `Balanced` precisely when the stored height did not
change and `Unknown` when it shrank by one; no other signal is produced. -/
theorem do_delete_spec : ∀ t : Avl, Inv t → ∀ dv : DeleteValue,
    Inv (do_delete t dv).1 ∧
    ((do_delete t dv).2.2 = .Balanced → height (do_delete t dv).1 = height t) ∧
    ((do_delete t dv).2.2 = .Unknown → height (do_delete t dv).1 + 1 = height t) ∧
    ((do_delete t dv).2.2 = .Balanced ∨ (do_delete t dv).2.2 = .Unknown) := by
  intro t
  induction t with
  | nil =>
    intro _ dv
    exact ⟨trivial, fun _ => rfl, fun hc => absurd hc (by simp [do_delete]), Or.inl rfl⟩
  | node rv rh l r ihl ihr =>
    intro ht dv
    obtain ⟨hh, hb, hl, hr⟩ := Inv_node.mp ht
    have hlnn := height_nonneg l hl
    have hrnn := height_nonneg r hr
    simp only [do_delete]
    cases hm : dv_matches dv rv l r with
    | true =>
      rw [if_pos rfl]
      cases l with
      | nil =>
        simp only [height_nil] at hh hb
        have h1 : Inv (update_height r) := by rw [update_height_inv hr]; exact hr
        have h2 : height (update_height r) = rh ∨ height (update_height r) + 1 = rh := by
          rw [update_height_inv hr]; right; omega
        exact wrap_height_check_spec rh _ _ h1 h2
      | node lv lh ll lr =>
        simp only [height_node] at hh hb hlnn
        cases r with
        | nil =>
          simp only [height_nil] at hh hb
          have h1 : Inv (update_height (Avl.node lv lh ll lr)) := by
            rw [update_height_inv hl]; exact hl
          have h2 : height (update_height (Avl.node lv lh ll lr)) = rh ∨
              height (update_height (Avl.node lv lh ll lr)) + 1 = rh := by
            rw [update_height_inv hl]; right; simp only [height_node]; omega
          exact wrap_height_check_spec rh _ _ h1 h2
        | node rv2 rh2 rl rr =>
          simp only [height_node] at hh hb hrnn
          by_cases hcomp :
              height (Avl.node lv lh ll lr) > height (Avl.node rv2 rh2 rl rr)
          · rw [if_pos hcomp]
            simp only [height_node] at hcomp
            rcases hdl : do_delete (Avl.node lv lh ll lr) .Max with ⟨l', dv', res'⟩
            obtain ⟨hi1, hi2, hi3, hi4⟩ := ihl hl .Max
            simp only [hdl] at hi1 hi2 hi3 hi4
            have hor : height l' = lh ∨ height l' + 1 = lh := by
              rcases hi4 with h4 | h4
              · exact Or.inl (by have := hi2 h4; simpa using this)
              · exact Or.inr (by have := hi3 h4; simpa using this)
            have hkey : ∀ X : Int,
                Inv (update_height (Avl.node X rh l' (Avl.node rv2 rh2 rl rr))) ∧
                (height (update_height (Avl.node X rh l' (Avl.node rv2 rh2 rl rr))) = rh ∨
                 height (update_height (Avl.node X rh l' (Avl.node rv2 rh2 rl rr))) + 1
                   = rh) := by
              intro X
              rw [update_height_node]
              refine ⟨⟨?_, ?_, hi1, hr⟩, ?_⟩ <;> simp only [height_node] <;> omega
            rcases dv' with _ | _ | v' | x
            · exact wrap_height_check_spec rh _ _ (hkey rv).1 (hkey rv).2
            · exact wrap_height_check_spec rh _ _ (hkey rv).1 (hkey rv).2
            · exact wrap_height_check_spec rh _ _ (hkey rv).1 (hkey rv).2
            · rcases x with _ | ⟨mv, mh, ml, mr⟩
              · exact wrap_height_check_spec rh _ _ (hkey rv).1 (hkey rv).2
              · exact wrap_height_check_spec rh _ _ (hkey mv).1 (hkey mv).2
          · rw [if_neg hcomp]
            simp only [height_node] at hcomp
            rcases hdr : do_delete (Avl.node rv2 rh2 rl rr) .Min with ⟨r', dv', res'⟩
            obtain ⟨hi1, hi2, hi3, hi4⟩ := ihr hr .Min
            simp only [hdr] at hi1 hi2 hi3 hi4
            have hor : height r' = rh2 ∨ height r' + 1 = rh2 := by
              rcases hi4 with h4 | h4
              · exact Or.inl (by have := hi2 h4; simpa using this)
              · exact Or.inr (by have := hi3 h4; simpa using this)
            have hkey : ∀ X : Int,
                Inv (update_height (Avl.node X rh (Avl.node lv lh ll lr) r')) ∧
                (height (update_height (Avl.node X rh (Avl.node lv lh ll lr) r')) = rh ∨
                 height (update_height (Avl.node X rh (Avl.node lv lh ll lr) r')) + 1
                   = rh) := by
              intro X
              rw [update_height_node]
              refine ⟨⟨?_, ?_, hl, hi1⟩, ?_⟩ <;> simp only [height_node] <;> omega
            rcases dv' with _ | _ | v' | x
            · exact wrap_height_check_spec rh _ _ (hkey rv).1 (hkey rv).2
            · exact wrap_height_check_spec rh _ _ (hkey rv).1 (hkey rv).2
            · exact wrap_height_check_spec rh _ _ (hkey rv).1 (hkey rv).2
            · rcases x with _ | ⟨mv, mh, ml, mr⟩
              · exact wrap_height_check_spec rh _ _ (hkey rv).1 (hkey rv).2
              · exact wrap_height_check_spec rh _ _ (hkey mv).1 (hkey mv).2
    | false =>
      rw [if_neg Bool.false_ne_true]
      cases hlt : dv_lt dv rv with
      | true =>
        rw [if_pos rfl]
        rcases hdl : do_delete l dv with ⟨l', dv', res'⟩
        obtain ⟨hi1, hi2, hi3, hi4⟩ := ihl hl dv
        simp only [hdl] at hi1 hi2 hi3 hi4
        have hlpn := height_nonneg l' hi1
        cases res' with
        | Balanced =>
          have hsame := hi2 rfl
          refine ⟨⟨?_, ?_, hi1, hr⟩, fun _ => rfl, fun hc => absurd hc (by simp),
            Or.inl rfl⟩ <;> (try simp only [height_node]) <;> omega
        | Unknown =>
          have hun := hi3 rfl
          have hrb : Inv (rebalance_left_del (Avl.node rv rh l' r)) ∧
              (height (rebalance_left_del (Avl.node rv rh l' r)) = rh ∨
               height (rebalance_left_del (Avl.node rv rh l' r)) + 1 = rh) := by
            by_cases hbf : balance_factor (Avl.node rv rh l' r) = -2
            · have hbf' := hbf
              simp only [balance_factor_node] at hbf'
              cases r with
              | nil =>
                exfalso
                simp only [height_nil] at hbf'
                omega
              | node rv2 rh2 rl rr =>
                obtain ⟨rhh, rhb, hInvRl, hInvRr⟩ := Inv_node.mp hr
                have hrlnn := height_nonneg rl hInvRl
                have hrrnn := height_nonneg rr hInvRr
                simp only [height_node] at hbf' hh hb
                rw [rebalance_left_del_bf hbf]
                by_cases hgc : height rl > height rr
                · rw [if_pos hgc]
                  cases rl with
                  | nil =>
                    exfalso
                    simp only [height_nil] at hgc
                    omega
                  | node u hu p q =>
                    obtain ⟨uhh, uhb, hInvP, hInvQ⟩ := Inv_node.mp hInvRl
                    simp only [height_node] at hgc rhh rhb
                    rw [rotate_rl_eq, right_rotate_eq, left_rotate_eq]
                    refine ⟨⟨?_, ?_, ⟨?_, ?_, hi1, hInvP⟩, ?_, ?_, hInvQ, hInvRr⟩, ?_⟩ <;>
                      (try simp only [height_node]) <;> omega
                · rw [if_neg hgc]
                  rw [left_rotate_eq]
                  refine ⟨⟨?_, ?_, ⟨?_, ?_, hi1, hInvRl⟩, hInvRr⟩, ?_⟩ <;>
                    (try simp only [height_node]) <;> omega
            · have hbf' := hbf
              simp only [balance_factor_node] at hbf'
              rw [rebalance_left_del_nbf hbf, update_height_node]
              refine ⟨⟨?_, ?_, hi1, hr⟩, ?_⟩ <;> (try simp only [height_node]) <;> omega
          exact wrap_height_check_spec rh _ _ hrb.1 hrb.2
        | Left => exact absurd (hi4.resolve_left (by simp)) (by simp)
        | Right => exact absurd (hi4.resolve_left (by simp)) (by simp)
      | false =>
        rw [if_neg Bool.false_ne_true]
        rcases hdr : do_delete r dv with ⟨r', dv', res'⟩
        obtain ⟨hi1, hi2, hi3, hi4⟩ := ihr hr dv
        simp only [hdr] at hi1 hi2 hi3 hi4
        have hrpn := height_nonneg r' hi1
        cases res' with
        | Balanced =>
          have hsame := hi2 rfl
          refine ⟨⟨?_, ?_, hl, hi1⟩, fun _ => rfl, fun hc => absurd hc (by simp),
            Or.inl rfl⟩ <;> (try simp only [height_node]) <;> omega
        | Unknown =>
          have hun := hi3 rfl
          have hrb : Inv (rebalance_right_del (Avl.node rv rh l r')) ∧
              (height (rebalance_right_del (Avl.node rv rh l r')) = rh ∨
               height (rebalance_right_del (Avl.node rv rh l r')) + 1 = rh) := by
            by_cases hbf : balance_factor (Avl.node rv rh l r') = 2
            · have hbf' := hbf
              simp only [balance_factor_node] at hbf'
              cases l with
              | nil =>
                exfalso
                simp only [height_nil] at hbf'
                omega
              | node lv2 lh2 ll lr =>
                obtain ⟨lhh, lhb, hInvLl, hInvLr⟩ := Inv_node.mp hl
                have hllnn := height_nonneg ll hInvLl
                have hlrnn := height_nonneg lr hInvLr
                simp only [height_node] at hbf' hh hb
                rw [rebalance_right_del_bf hbf]
                by_cases hgc : height ll ≥ height lr
                · rw [if_pos hgc]
                  rw [right_rotate_eq]
                  refine ⟨⟨?_, ?_, hInvLl, ?_, ?_, hInvLr, hi1⟩, ?_⟩ <;>
                    (try simp only [height_node]) <;> omega
                · rw [if_neg hgc]
                  cases lr with
                  | nil =>
                    exfalso
                    simp only [height_nil] at hgc
                    omega
                  | node u hu p q =>
                    obtain ⟨uhh, uhb, hInvP, hInvQ⟩ := Inv_node.mp hInvLr
                    simp only [height_node] at hgc lhh lhb
                    rw [rotate_lr_eq, left_rotate_eq, right_rotate_eq]
                    refine ⟨⟨?_, ?_, ⟨?_, ?_, hInvLl, hInvP⟩, ?_, ?_, hInvQ, hi1⟩, ?_⟩ <;>
                      (try simp only [height_node]) <;> omega
            · have hbf' := hbf
              simp only [balance_factor_node] at hbf'
              rw [rebalance_right_del_nbf hbf, update_height_node]
              refine ⟨⟨?_, ?_, hl, hi1⟩, ?_⟩ <;> (try simp only [height_node]) <;> omega
          exact wrap_height_check_spec rh _ _ hrb.1 hrb.2
        | Left => exact absurd (hi4.resolve_left (by simp)) (by simp)
        | Right => exact absurd (hi4.resolve_left (by simp)) (by simp)

/-- An abstract operation against the public `AvlTree` API. -/
inductive AvlOp where
  | ins (v : Int)
  | del (v : Int)

/-- Apply one public API call (`insert` / `delete`, keeping the tree). -/
def applyOp (t : Avl) : AvlOp → Avl
  | .ins v => insert t v
  | .del v => (delete t v).1

/-- Run a finite sequence of insert/delete calls starting from `None`. -/
def runOps (ops : List AvlOp) : Avl := ops.foldl applyOp .nil

theorem Inv_applyOp {t : Avl} (ht : Inv t) (op : AvlOp) : Inv (applyOp t op) := by
  cases op with
  | ins v => exact (do_insert_spec v t ht).1
  | del v =>
    have hspec := (do_delete_spec t ht (.Val v)).1
    show Inv (delete t v).1
    unfold delete
    rcases hdd : do_delete t (.Val v) with ⟨t', dv', res'⟩
    rw [hdd] at hspec
    cases dv' <;> exact hspec

theorem Inv_foldl : ∀ (ops : List AvlOp) (t : Avl), Inv t → Inv (ops.foldl applyOp t) := by
  intro ops
  induction ops with
  | nil => exact fun t ht => ht
  | cons op ops ih => exact fun t ht => ih _ (Inv_applyOp ht op)

/-- Modelled from the spec: `exists(key)` "is a plain O(log n) descent
returning a boolean".  The repository file hosting the membership helper used
by `main.rs` (its `lib.rs`) is not under `src/`; the descent order is the one
`do_insert`/`do_delete` use. -/
def contains : Avl → Int → Bool
  | .nil, _ => false
  | .node rv _ l r, v =>
    if v = rv then true else if v < rv then contains l v else contains r v

/-- Modelled from the spec: "`height()` and `leaf_count()` are O(n) recursive
counts (leaf = node with no children)"; the hosting `lib.rs` is not under
`src/`.  The empty tree has 0 leaves. -/
def leaf_count : Avl → Nat
  | .nil => 0
  | .node _ _ l r =>
    match l, r with
    | .nil, .nil => 1
    | _, _ => leaf_count l + leaf_count r

/-- Inserting a key found by the search descent returns `Balanced` at once
and leaves the tree untouched (`AVL.rs` lines 190-192). -/
theorem do_insert_contains : ∀ (t : Avl) (v : Int), contains t v = true →
    do_insert t v = (t, .Balanced) := by
  intro t
  induction t with
  | nil => intro v hc; simp [contains] at hc
  | node rv rh l r ihl ihr =>
    intro v hc
    by_cases h1 : v = rv
    · simp [do_insert, h1]
    · by_cases h2 : v < rv
      · have hcl : contains l v = true := by simpa [contains, h1, h2] using hc
        simp [do_insert, h1, h2, ihl v hcl]
      · have hcr : contains r v = true := by simpa [contains, h1, h2] using hc
        simp [do_insert, h1, h2, ihr v hcr]

/-- Value stored at the root (0 for the empty tree). -/
def rootVal : Avl → Int
  | .nil => 0
  | .node v _ _ _ => v

/-- Value of the rightmost node (the node `Max` matches). -/
def rightmostVal : Avl → Int
  | .nil => 0
  | .node v _ _ r =>
    match r with
    | .nil => v
    | _ => rightmostVal r

/-- Value of the leftmost node (the node `Min` matches). -/
def leftmostVal : Avl → Int
  | .nil => 0
  | .node v _ l _ =>
    match l with
    | .nil => v
    | _ => leftmostVal l

theorem rightmostVal_cons {v h : Int} {l : Avl} {rv2 rh2 : Int} {rl rr : Avl} :
    rightmostVal (.node v h l (.node rv2 rh2 rl rr)) =
      rightmostVal (.node rv2 rh2 rl rr) := rfl

theorem leftmostVal_cons {v h : Int} {lv2 lh2 : Int} {ll lr : Avl} {r : Avl} :
    leftmostVal (.node v h (.node lv2 lh2 ll lr) r) =
      leftmostVal (.node lv2 lh2 ll lr) := rfl

/-- One unfolding of `do_delete` when the selector does not match the root
and orders to the right. -/
theorem do_delete_step_right {rv rh : Int} {l r : Avl} {dv : DeleteValue}
    (hm : dv_matches dv rv l r = false) (hlt : dv_lt dv rv = false) :
    do_delete (.node rv rh l r) dv =
      match do_delete r dv with
      | (r', dv', .Balanced) => (.node rv rh l r', dv', .Balanced)
      | (r', dv', _) =>
          wrap_height_check rh (rebalance_right_del (.node rv rh l r'), dv') := by
  simp only [do_delete, hm, hlt]
  rw [if_neg Bool.false_ne_true, if_neg Bool.false_ne_true]

/-- One unfolding of `do_delete` when the selector does not match the root
and orders to the left. -/
theorem do_delete_step_left {rv rh : Int} {l r : Avl} {dv : DeleteValue}
    (hm : dv_matches dv rv l r = false) (hlt : dv_lt dv rv = true) :
    do_delete (.node rv rh l r) dv =
      match do_delete l dv with
      | (l', dv', .Balanced) => (.node rv rh l' r, dv', .Balanced)
      | (l', dv', _) =>
          wrap_height_check rh (rebalance_left_del (.node rv rh l' r), dv') := by
  simp [do_delete, hm, hlt]

/-- One unfolding of `do_delete` at a matched node with two children
(`AVL.rs` lines 259-280): the replacement is popped with `Max` from the left
subtree if it is strictly taller, else with `Min` from the right subtree. -/
theorem do_delete_found_two {rv rh : Int} {l r : Avl} {dv : DeleteValue}
    (hm : dv_matches dv rv l r = true) (hl : l ≠ .nil) (hr : r ≠ .nil) :
    do_delete (.node rv rh l r) dv =
      wrap_height_check rh
        (if height l > height r then
          match do_delete l .Max with
          | (l', .Del (.node mv mh ml mr), _) =>
              (update_height (.node mv rh l' r), DeleteValue.Del (.node rv mh ml mr))
          | (l', dv', _) => (update_height (.node rv rh l' r), dv')
        else
          match do_delete r .Min with
          | (r', .Del (.node mv mh ml mr), _) =>
              (update_height (.node mv rh l r'), DeleteValue.Del (.node rv mh ml mr))
          | (r', dv', _) => (update_height (.node rv rh l r'), dv')) := by
  cases l with
  | nil => exact absurd rfl hl
  | node lv lh ll lr =>
    cases r with
    | nil => exact absurd rfl hr
    | node rv2 rh2 rl rr =>
      simp only [do_delete]
      rw [if_pos hm]
      simp only [isNil_node]
      rw [if_neg Bool.false_ne_true, if_neg Bool.false_ne_true]

/-- `do_delete` with the `Max` selector pops the rightmost node: the returned
`Del` carries exactly the rightmost value. -/
theorem do_delete_max_val : ∀ t : Avl, t ≠ .nil →
    ∃ mh ml mr, (do_delete t .Max).2.1 = .Del (.node (rightmostVal t) mh ml mr) := by
  intro t
  induction t with
  | nil => exact fun hc => absurd rfl hc
  | node rv rh l r ihl ihr =>
    intro _
    cases r with
    | nil =>
      cases l with
      | nil => exact ⟨rh, .nil, .nil, rfl⟩
      | node lv lh ll lr => exact ⟨rh, .nil, .nil, rfl⟩
    | node rv2 rh2 rl rr =>
      rw [rightmostVal_cons]
      obtain ⟨mh, ml, mr, hm⟩ := ihr (by simp)
      refine ⟨mh, ml, mr, ?_⟩
      rcases hdr : do_delete (Avl.node rv2 rh2 rl rr) .Max with ⟨r', dv', res'⟩
      rw [hdr] at hm
      have hdv : dv' = DeleteValue.Del
          (.node (rightmostVal (Avl.node rv2 rh2 rl rr)) mh ml mr) := hm
      subst hdv
      rw [@do_delete_step_right rv rh l (Avl.node rv2 rh2 rl rr) DeleteValue.Max rfl rfl, hdr]
      cases res' <;> rfl

/-- `do_delete` with the `Min` selector pops the leftmost node. -/
theorem do_delete_min_val : ∀ t : Avl, t ≠ .nil →
    ∃ mh ml mr, (do_delete t .Min).2.1 = .Del (.node (leftmostVal t) mh ml mr) := by
  intro t
  induction t with
  | nil => exact fun hc => absurd rfl hc
  | node rv rh l r ihl ihr =>
    intro _
    cases l with
    | nil => exact ⟨rh, .nil, .nil, rfl⟩
    | node lv2 lh2 ll lr =>
      rw [leftmostVal_cons]
      obtain ⟨mh, ml, mr, hm⟩ := ihl (by simp)
      refine ⟨mh, ml, mr, ?_⟩
      rcases hdl : do_delete (Avl.node lv2 lh2 ll lr) .Min with ⟨l', dv', res'⟩
      rw [hdl] at hm
      have hdv : dv' = DeleteValue.Del
          (.node (leftmostVal (Avl.node lv2 lh2 ll lr)) mh ml mr) := hm
      subst hdv
      rw [@do_delete_step_left rv rh (Avl.node lv2 lh2 ll lr) r DeleteValue.Min rfl rfl, hdl]
      cases res' <;> rfl

end AVL

/-- C1: for every finite sequence of insert and delete operations starting
from the empty AVL tree, every node `n` of the resulting tree satisfies the
stored-height accuracy `height(n) = 1 + max(height(n.left), height(n.right))`
(absent children of height 0) and the balance bound
`|height(n.left) - height(n.right)| ≤ 1` — this is exactly `AVL.Inv`. -/
theorem C1_avl_invariant_holds (ops : List AVL.AvlOp) : AVL.Inv (AVL.runOps ops) :=
  AVL.Inv_foldl ops .nil trivial

/-- C3: if `k` is already present in the AVL tree (found by the search
descent), `insert k` is a structural no-op: `do_insert` answers `Balanced`
with the identical tree, so the tree, its `height()` and its `leaf_count()`
are unchanged, and on such trees `insert` is idempotent. -/
theorem C3_duplicate_insert_noop : ∀ (t : AVL.Avl) (v : Int),
    AVL.contains t v = true →
    AVL.do_insert t v = (t, .Balanced) ∧ AVL.insert t v = t ∧
    AVL.height (AVL.insert t v) = AVL.height t ∧
    AVL.leaf_count (AVL.insert t v) = AVL.leaf_count t ∧
    AVL.insert (AVL.insert t v) v = AVL.insert t v := by
  intro t v hc
  have h := AVL.do_insert_contains t v hc
  have hi : AVL.insert t v = t := by unfold AVL.insert; rw [h]
  exact ⟨h, hi, by rw [hi], by rw [hi], by rw [hi, hi]⟩

/-- Witness for C3 at a concrete tree containing the key. -/
theorem C3_duplicate_insert_noop_witness :
    AVL.do_insert (.node 5 1 .nil .nil) 5 = (.node 5 1 .nil .nil, .Balanced) ∧
    AVL.insert (.node 5 1 .nil .nil) 5 = .node 5 1 .nil .nil ∧
    AVL.height (AVL.insert (.node 5 1 .nil .nil) 5) = AVL.height (.node 5 1 .nil .nil) ∧
    AVL.leaf_count (AVL.insert (.node 5 1 .nil .nil) 5)
      = AVL.leaf_count (.node 5 1 .nil .nil) ∧
    AVL.insert (AVL.insert (.node 5 1 .nil .nil) 5) 5
      = AVL.insert (.node 5 1 .nil .nil) 5 :=
  C3_duplicate_insert_noop (.node 5 1 .nil .nil) 5 (by decide)

/-- C4 counterexample: on the AVL tree with root 2 and leaf children 1 and 3
(equal subtree heights), `delete 2` takes the replacement from the *right*
subtree (the successor 3), producing root 3 with left child 1 — not root 1
with right child 3 as the claim asserts for the taller-or-equal rule. -/
theorem C4_counterexample :
    (AVL.delete (.node 2 2 (.node 1 1 .nil .nil) (.node 3 1 .nil .nil)) 2).1 =
      .node 3 2 (.node 1 1 .nil .nil) .nil ∧
    AVL.rootVal (AVL.delete (.node 2 2 (.node 1 1 .nil .nil) (.node 3 1 .nil .nil)) 2).1
      ≠ 1 := by
  constructor
  · decide
  · decide

/-- C4 (amended): when the deleted node has two children the replacement
value comes from the left subtree (its rightmost value, the in-order
predecessor) only when the left subtree is *strictly* taller; on ties and
when the right side is taller it comes from the right subtree (its leftmost
value, the successor).  Hence deleting root 2 from the tree with children 1
and 3 yields root 3 with left child 1. -/
theorem C4_delete_two_children_tiebreak :
    (∀ (v rh : Int) (l r : AVL.Avl), l ≠ .nil → r ≠ .nil →
      AVL.rootVal (AVL.do_delete (.node v rh l r) (.Val v)).1 =
        if AVL.height l > AVL.height r then AVL.rightmostVal l
        else AVL.leftmostVal r) ∧
    (AVL.delete (.node 2 2 (.node 1 1 .nil .nil) (.node 3 1 .nil .nil)) 2).1 =
      .node 3 2 (.node 1 1 .nil .nil) .nil := by
  constructor
  · intro v rh l r hl hr
    have hm : AVL.dv_matches (.Val v) v l r = true := by simp [AVL.dv_matches]
    rw [AVL.do_delete_found_two hm hl hr]
    by_cases hcomp : AVL.height l > AVL.height r
    · rw [if_pos hcomp, if_pos hcomp]
      obtain ⟨mh, ml, mr, hmax⟩ := AVL.do_delete_max_val l hl
      rcases hdm : AVL.do_delete l .Max with ⟨l', dv', res'⟩
      rw [hdm] at hmax
      have hdv : dv' = AVL.DeleteValue.Del (.node (AVL.rightmostVal l) mh ml mr) := hmax
      subst hdv
      rfl
    · rw [if_neg hcomp, if_neg hcomp]
      obtain ⟨mh, ml, mr, hmin⟩ := AVL.do_delete_min_val r hr
      rcases hdm : AVL.do_delete r .Min with ⟨r', dv', res'⟩
      rw [hdm] at hmin
      have hdv : dv' = AVL.DeleteValue.Del (.node (AVL.leftmostVal r) mh ml mr) := hmin
      subst hdv
      rfl
  · decide

/-- Witness for the amended C4 at the tied three-node tree. -/
theorem C4_delete_two_children_tiebreak_witness :
    AVL.rootVal (AVL.do_delete
        (.node 2 2 (.node 1 1 .nil .nil) (.node 3 1 .nil .nil)) (.Val 2)).1 =
      if AVL.height (.node 1 1 .nil .nil : AVL.Avl) > AVL.height (.node 3 1 .nil .nil : AVL.Avl)
      then AVL.rightmostVal (.node 1 1 .nil .nil) else AVL.leftmostVal (.node 3 1 .nil .nil) :=
  C4_delete_two_children_tiebreak.1 2 2 (.node 1 1 .nil .nil) (.node 3 1 .nil .nil)
    (by decide) (by decide)

/-- C9: in the delete rebalancing step, when the balance factor reaches ±2
and the two grandchild subtrees of the taller side have *equal* heights, the
single rotation is chosen: single left rotation when the right side is too
tall, single right rotation when the left side is too tall. -/
theorem C9_delete_tie_single_rotation :
    (∀ (v h : Int) (l : AVL.Avl) (rv2 rh2 : Int) (rl rr : AVL.Avl),
      AVL.balance_factor (.node v h l (.node rv2 rh2 rl rr)) = -2 →
      AVL.height rl = AVL.height rr →
      AVL.rebalance_left_del (.node v h l (.node rv2 rh2 rl rr)) =
        AVL.left_rotate (.node v h l (.node rv2 rh2 rl rr))) ∧
    (∀ (v h : Int) (lv2 lh2 : Int) (ll lr : AVL.Avl) (r : AVL.Avl),
      AVL.balance_factor (.node v h (.node lv2 lh2 ll lr) r) = 2 →
      AVL.height ll = AVL.height lr →
      AVL.rebalance_right_del (.node v h (.node lv2 lh2 ll lr) r) =
        AVL.right_rotate (.node v h (.node lv2 lh2 ll lr) r)) := by
  constructor
  · intro v h l rv2 rh2 rl rr hbf heq
    rw [AVL.rebalance_left_del_bf hbf, if_neg (by omega)]
  · intro v h lv2 lh2 ll lr r hbf heq
    rw [AVL.rebalance_right_del_bf hbf, if_pos (by omega)]

/-- Witness for C9: a tied deficiency on each side resolved by the single
rotation. -/
theorem C9_delete_tie_single_rotation_witness :
    AVL.rebalance_left_del
        (.node 1 3 .nil (.node 3 2 (.node 2 1 .nil .nil) (.node 4 1 .nil .nil))) =
      AVL.left_rotate
        (.node 1 3 .nil (.node 3 2 (.node 2 1 .nil .nil) (.node 4 1 .nil .nil))) ∧
    AVL.rebalance_right_del
        (.node 4 3 (.node 2 2 (.node 1 1 .nil .nil) (.node 3 1 .nil .nil)) .nil) =
      AVL.right_rotate
        (.node 4 3 (.node 2 2 (.node 1 1 .nil .nil) (.node 3 1 .nil .nil)) .nil) :=
  ⟨C9_delete_tie_single_rotation.1 1 3 .nil 3 2 (.node 2 1 .nil .nil) (.node 4 1 .nil .nil)
      (by decide) (by decide),
   C9_delete_tie_single_rotation.2 4 3 2 2 (.node 1 1 .nil .nil) (.node 3 1 .nil .nil) .nil
      (by decide) (by decide)⟩

namespace RB

/-- `NodeColor` of the source. -/
inductive Color where
  | Red | Black
deriving DecidableEq

/-- Red-Black node (`TreeNode<u32>`): color, key and the owned children.
The non-owning `parent` back-reference of the source is represented
positionally: a node is identified by its path from the root (`false` =
left child, `true` = right child), and "go to the parent" is dropping the
last direction. -/
inductive RBT where
  | nil : RBT
  | node (c : Color) (k : Nat) (left right : RBT) : RBT
deriving DecidableEq

abbrev Path := List Bool

/-- Subtree rooted at the node a path points to (`nil` if the path leaves
the tree). -/
def subtreeAt : RBT → Path → RBT
  | t, [] => t
  | .nil, _ :: _ => .nil
  | .node _ _ l r, d :: p => subtreeAt (if d then r else l) p

/-- Rewrite the subtree at a path. -/
def modifyAt : RBT → Path → (RBT → RBT) → RBT
  | t, [], f => f t
  | .nil, _ :: _, _ => .nil
  | .node c k l r, d :: p, f =>
      if d then .node c k l (modifyAt r p f) else .node c k (modifyAt l p f) r

/-- `RBTree::reset_color` on the node at a path. -/
def setColorAt (t : RBT) (p : Path) (c' : Color) : RBT :=
  modifyAt t p fun u =>
    match u with
    | .nil => .nil
    | .node _ k l r => .node c' k l r

/-- Key overwrite (`node_to_delete.borrow_mut().key = replace_key`). -/
def setKeyAt (t : RBT) (p : Path) (k' : Nat) : RBT :=
  modifyAt t p fun u =>
    match u with
    | .nil => .nil
    | .node c _ l r => .node c k' l r

/-- Detaching a child (`parent.borrow_mut().left/right = None`). -/
def removeAt (t : RBT) (p : Path) : RBT := modifyAt t p fun _ => .nil

/-- Local shape change of `RBTree::left_rotation` (colors untouched). -/
def rotL : RBT → RBT
  | .node c k l (.node rc rk rl rr) => .node rc rk (.node c k l rl) rr
  | t => t

/-- Local shape change of `RBTree::right_rotation`. -/
def rotR : RBT → RBT
  | .node c k (.node lc lk ll lr) r => .node lc lk ll (.node c k lr r)
  | t => t

/-- `RBTree::left_rotation(node)` for the node at path `p`; the parent /
root-pointer rebinding of the source is positional here. -/
def left_rotation (t : RBT) (p : Path) : RBT := modifyAt t p rotL

/-- `RBTree::right_rotation(node)` for the node at path `p`. -/
def right_rotation (t : RBT) (p : Path) : RBT := modifyAt t p rotR

/-- `RBTree::get_color` (absent nodes read as Black at call sites). -/
def colorOf : RBT → Color
  | .nil => .Black
  | .node c _ _ _ => c

def isRed : RBT → Bool
  | .node .Red _ _ _ => true
  | _ => false

def isBlack : RBT → Bool
  | .node .Black _ _ _ => true
  | .nil => true
  | _ => false

def isNil : RBT → Bool
  | .nil => true
  | _ => false

/-- `RBTree::get_key` (0 for absent, never read there). -/
def keyOf : RBT → Nat
  | .nil => 0
  | .node _ k _ _ => k

def leftOf : RBT → RBT
  | .nil => .nil
  | .node _ _ l _ => l

def rightOf : RBT → RBT
  | .nil => .nil
  | .node _ _ _ r => r

/-- `RBTree::has_red_child`. -/
def has_red_child (t : RBT) : Bool := isRed (leftOf t) || isRed (rightOf t)

/-- `RBTree::find_right_child`: walk to the rightmost descendant. -/
def find_right_child : RBT → RBT
  | .node _ _ _ (.node rc rk rl rr) => find_right_child (.node rc rk rl rr)
  | t => t

/-- Path (inside a subtree) of its rightmost descendant. -/
def rightmostPath : RBT → Path
  | .node _ _ _ (.node rc rk rl rr) => true :: rightmostPath (.node rc rk rl rr)
  | _ => []

/-- `RBTree::find_replace_node`: rightmost of the left subtree when both
children exist, else the single child, else absent. -/
def find_replace_node : RBT → RBT
  | .nil => .nil
  | .node _ _ l r =>
    match l, r with
    | .node lc lk ll lr, .node _ _ _ _ => find_right_child (.node lc lk ll lr)
    | .node lc lk ll lr, .nil => .node lc lk ll lr
    | .nil, .node rc rk rl rr => .node rc rk rl rr
    | .nil, .nil => .nil

/-- Loop body of `RBTree::private_search`; `acc` is the path of the node
currently visited. -/
def searchAux : RBT → Nat → Path → Bool × Path
  | .nil, _, acc => (false, acc)
  | .node _ k l r, v, acc =>
    if k < v then
      match r with
      | .nil => (false, acc)
      | _ => searchAux r v (acc ++ [true])
    else if k > v then
      match l with
      | .nil => (false, acc)
      | _ => searchAux l v (acc ++ [false])
    else (true, acc)

/-- `RBTree::private_search`: whether the key was found, plus the path of
the last node visited (the found node on success). -/
def private_search (t : RBT) (v : Nat) : Bool × Path :=
  match t with
  | .nil => (false, [])
  | _ => searchAux t v []

/-- `RBTree::adjust_double_black` on the node at path `p`; returns the new
tree together with the node's new path (standing for its `Rc` identity).
This mirrors the source faithfully, including its two departures from the
textbook algorithm: with a Black sibling that has two Black children the
sibling is recolored *Black* (line 363), and the Red-sibling case stops
after its rotation instead of re-examining the node (lines 371-383). -/
def adjust_double_black (t : RBT) (p : Path) : RBT × Path :=
  match p with
  | [] => (t, [])
  | d0 :: p0 =>
    let pp := (d0 :: p0).dropLast
    let dd := (d0 :: p0).getLastD false
    let node_p := subtreeAt t pp
    let node_s := subtreeAt t (pp ++ [!dd])
    match node_s with
    | .nil =>
      let q := adjust_double_black t pp
      (q.1, q.2 ++ [dd])
    | .node sc sk sl sr =>
      if sc = .Black then
        if has_red_child (.node sc sk sl sr) then
          if isRed sl then
            if (!dd) = false then
              -- LL: sibling is a left child and its left child is Red
              let t1 := setColorAt t (pp ++ [!dd, false]) sc
              let t2 := setColorAt t1 (pp ++ [!dd]) (colorOf node_p)
              let t3 := right_rotation t2 pp
              (setColorAt t3 (pp ++ [dd]) .Black, pp ++ [dd, dd])
            else
              -- RL: sibling is a right child and its left child is Red
              let t1 := setColorAt t (pp ++ [!dd, false]) (colorOf node_p)
              let t2 := right_rotation t1 (pp ++ [!dd])
              let t3 := left_rotation t2 pp
              (setColorAt t3 (pp ++ [dd]) .Black, pp ++ [dd, dd])
          else
            if (!dd) = false then
              -- LR: sibling is a left child and its right child is Red
              let t1 := setColorAt t (pp ++ [!dd, true]) (colorOf node_p)
              let t2 := left_rotation t1 (pp ++ [!dd])
              let t3 := right_rotation t2 pp
              (setColorAt t3 (pp ++ [dd]) .Black, pp ++ [dd, dd])
            else
              -- RR: sibling is a right child and its right child is Red
              let t1 := setColorAt t (pp ++ [!dd, true]) sc
              let t2 := setColorAt t1 (pp ++ [!dd]) (colorOf node_p)
              let t3 := left_rotation t2 pp
              (setColorAt t3 (pp ++ [dd]) .Black, pp ++ [dd, dd])
        else
          -- two Black children: the source recolors the sibling Black
          let t1 := setColorAt t (pp ++ [!dd]) .Black
          if colorOf node_p = .Black then
            let q := adjust_double_black t1 pp
            (q.1, q.2 ++ [dd])
          else
            (setColorAt t1 pp .Black, d0 :: p0)
      else
        -- Red sibling: recolor parent Red / sibling Black, rotate the parent
        -- toward the deficient side, and return without re-examination
        let t1 := setColorAt t pp .Red
        let t2 := setColorAt t1 (pp ++ [!dd]) .Black
        if (!dd) = false then
          (right_rotation t2 pp, pp ++ [dd, dd])
        else
          (left_rotation t2 pp, pp ++ [dd, dd])
termination_by p.length
decreasing_by
  all_goals simp [List.length_dropLast]

def size : RBT → Nat
  | .nil => 0
  | .node _ _ l r => size l + size r + 1

theorem subtreeAt_nil : ∀ q : Path, subtreeAt .nil q = .nil := by
  intro q; cases q <;> rfl

theorem subtreeAt_at_nil_path (t : RBT) : subtreeAt t [] = t := by cases t <;> rfl

theorem subtreeAt_append : ∀ (p : Path) (t : RBT) (q : Path),
    subtreeAt t (p ++ q) = subtreeAt (subtreeAt t p) q := by
  intro p
  induction p with
  | nil => intro t q; rw [List.nil_append, subtreeAt_at_nil_path]
  | cons d p ih =>
    intro t q
    cases t with
    | nil => simp [subtreeAt, subtreeAt_nil]
    | node c k l r => exact ih (if d then r else l) q

theorem subtreeAt_setKeyAt_deeper : ∀ (p : Path) (t : RBT) (k' : Nat) (d : Bool) (q : Path),
    subtreeAt (setKeyAt t p k') (p ++ d :: q) = subtreeAt t (p ++ d :: q) := by
  intro p
  induction p with
  | nil =>
    intro t k' d q
    cases t with
    | nil => rfl
    | node c k l r => rfl
  | cons e p ih =>
    intro t k' d q
    cases t with
    | nil => rfl
    | node c k l r =>
      cases e with
      | false => exact ih l k' d q
      | true => exact ih r k' d q

theorem size_subtreeAt_le : ∀ (q : Path) (t : RBT), size (subtreeAt t q) ≤ size t := by
  intro q
  induction q with
  | nil => intro t; exact Nat.le_of_eq (congrArg size (subtreeAt_at_nil_path t))
  | cons d q ih =>
    intro t
    cases t with
    | nil => rw [subtreeAt_nil]
    | node c k l r =>
      cases d with
      | false =>
        have h1 : size l ≤ size (RBT.node c k l r) := by simp only [size]; omega
        exact Nat.le_trans (ih l) h1
      | true =>
        have h1 : size r ≤ size (RBT.node c k l r) := by simp only [size]; omega
        exact Nat.le_trans (ih r) h1

/-- `RBTree::private_delete_node` on the node at path `p` (the source always
returns `Ok(())`, so only the updated tree is returned).  With two children
the key is overwritten with the replacement's key and the replacement (the
rightmost node of the left subtree) is deleted recursively. -/
def private_delete_node (t : RBT) (p : Path) : RBT :=
  match hs : subtreeAt t p with
  | .nil => t
  | .node c k l r =>
    let replace_node := find_replace_node (.node c k l r)
    let replace_delete_black : Bool :=
      (isNil replace_node || isBlack replace_node) && isBlack (.node c k l r)
    if replace_node = .nil then
      -- node_to_delete has 0 children
      if p = [] then .nil
      else
        let q := if replace_delete_black then adjust_double_black t p else (t, p)
        removeAt q.1 q.2
    else if isNil l || isNil r then
      -- node_to_delete has 1 child
      if p = [] then .node c (keyOf replace_node) .nil .nil
      else
        let t1 := modifyAt t p fun _ => replace_node
        if replace_delete_black then (adjust_double_black t1 p).1
        else setColorAt t1 p .Black
    else
      -- node_to_delete has 2 children
      private_delete_node (setKeyAt t p (keyOf replace_node))
        (p ++ false :: rightmostPath l)
termination_by size (subtreeAt t p)
decreasing_by
  rw [subtreeAt_setKeyAt_deeper, subtreeAt_append, hs]
  calc size (subtreeAt (RBT.node c k l r) (false :: rightmostPath l))
      = size (subtreeAt l (rightmostPath l)) := rfl
    _ ≤ size l := size_subtreeAt_le _ _
    _ < size (RBT.node c k l r) := by simp [size]; omega

/-- `Result<(), String>` of the source. -/
inductive RbResult where
  | ok
  | err (msg : String)
deriving DecidableEq

/-- `RBTree::delete`. -/
def delete (t : RBT) (v : Nat) : RBT × RbResult :=
  match t with
  | .nil => (t, .err "Tree is none")
  | _ =>
    match private_search t v with
    | (false, _) => (t, .err "The node with val is not found")
    | (true, p) => (private_delete_node t p, .ok)

/-- `RBTree::search_node`. -/
def search_node (t : RBT) (v : Nat) : RbResult :=
  match private_search t v with
  | (false, _) => .err "The node with val is not found"
  | (true, _) => .ok

/-- No Red node has a Red child (absent children count as Black). -/
def noRedRed : RBT → Bool
  | .nil => true
  | .node .Red _ l r => !isRed l && !isRed r && noRedRed l && noRedRed r
  | .node .Black _ l r => noRedRed l && noRedRed r

/-- The common number of Black nodes on every root-to-absent-child path,
when all such paths agree. -/
def blackCountOpt : RBT → Option Nat
  | .nil => some 0
  | .node c _ l r =>
    match blackCountOpt l, blackCountOpt r with
    | some a, some b =>
        if a = b then some (a + (if c = .Black then 1 else 0)) else none
    | _, _ => none

/-- Every root-to-absent-child path carries the same number of Black nodes. -/
def blackBalanced (t : RBT) : Bool := (blackCountOpt t).isSome

/-- The claim's Red-Black invariant. -/
def isValidRB (t : RBT) : Bool := noRedRed t && blackBalanced t

end RB

namespace RB

@[simp] theorem isNil_nil_rb : isNil .nil = true := rfl

@[simp] theorem isNil_node_rb {c k l r} : isNil (.node c k l r) = false := rfl

/-- In-order key list. -/
def keys : RBT → List Nat
  | .nil => []
  | .node _ k l r => keys l ++ k :: keys r

/-- Binary-search-tree ordering on keys. -/
def isBST : RBT → Prop
  | .nil => True
  | .node _ k l r =>
      (∀ x ∈ keys l, x < k) ∧ (∀ x ∈ keys r, k < x) ∧ isBST l ∧ isBST r

theorem find_right_child_ne_nil : ∀ t : RBT, t ≠ .nil → find_right_child t ≠ .nil := by
  intro t
  induction t with
  | nil => exact fun hc => absurd rfl hc
  | node c k l r ihl ihr =>
    intro _
    cases r with
    | nil => simp [find_right_child]
    | node rc rk rl rr => exact ihr (by simp)

theorem find_right_child_right_nil : ∀ t : RBT, rightOf (find_right_child t) = .nil := by
  intro t
  induction t with
  | nil => rfl
  | node c k l r ihl ihr =>
    cases r with
    | nil => rfl
    | node rc rk rl rr => exact ihr

theorem find_right_child_mem : ∀ t : RBT, t ≠ .nil → keyOf (find_right_child t) ∈ keys t := by
  intro t
  induction t with
  | nil => exact fun hc => absurd rfl hc
  | node c k l r ihl ihr =>
    intro _
    cases r with
    | nil =>
      show keyOf (RBT.node c k l .nil) ∈ keys (RBT.node c k l .nil)
      simp [keys, keyOf]
    | node rc rk rl rr =>
      have h := ihr (by simp)
      show keyOf (find_right_child (RBT.node rc rk rl rr))
          ∈ keys l ++ k :: keys (RBT.node rc rk rl rr)
      exact List.mem_append_right _ (List.mem_cons_of_mem _ h)

/-- On a BST the rightmost key of a subtree bounds all its keys: the
replacement really is the maximum (in-order predecessor). -/
theorem find_right_child_max : ∀ t : RBT, isBST t →
    ∀ x ∈ keys t, x ≤ keyOf (find_right_child t) := by
  intro t
  induction t with
  | nil => intro _ x hx; simp [keys] at hx
  | node c k l r ihl ihr =>
    intro hb x hx
    obtain ⟨hkl, hkr, hbl, hbr⟩ := hb
    cases r with
    | nil =>
      show x ≤ keyOf (RBT.node c k l .nil)
      simp only [keys, List.mem_append, List.mem_cons] at hx
      rcases hx with hx | hx | hx
      · exact Nat.le_of_lt (hkl x hx)
      · exact Nat.le_of_eq hx
      · simp [keys] at hx
    | node rc rk rl rr =>
      have hmem := find_right_child_mem (RBT.node rc rk rl rr) (by simp)
      show x ≤ keyOf (find_right_child (RBT.node rc rk rl rr))
      rw [show keys (RBT.node c k l (RBT.node rc rk rl rr))
          = keys l ++ k :: keys (RBT.node rc rk rl rr) from rfl] at hx
      simp only [List.mem_append, List.mem_cons] at hx
      rcases hx with hx | hx | hx
      · exact Nat.le_of_lt (Nat.lt_trans (hkl x hx) (hkr _ hmem))
      · subst hx; exact Nat.le_of_lt (hkr _ hmem)
      · exact ihr hbr x hx

theorem searchAux_step_right {c : Color} {k : Nat} {l : RBT} {rc : Color} {rk : Nat}
    {rl rr : RBT} {v : Nat} {acc : Path} (h1 : k < v) :
    searchAux (.node c k l (.node rc rk rl rr)) v acc
      = searchAux (.node rc rk rl rr) v (acc ++ [true]) := by
  conv_lhs => rw [searchAux.eq_def]
  dsimp only
  rw [if_pos h1]

theorem searchAux_step_left {c : Color} {k : Nat} {lc : Color} {lk : Nat} {ll lr : RBT}
    {r : RBT} {v : Nat} {acc : Path} (h1 : ¬ k < v) (h2 : k > v) :
    searchAux (.node c k (.node lc lk ll lr) r) v acc
      = searchAux (.node lc lk ll lr) v (acc ++ [false]) := by
  conv_lhs => rw [searchAux.eq_def]
  dsimp only
  rw [if_neg h1, if_pos h2]

/-- On a binary search tree the descent of `private_search` finds a key
exactly when the key occurs in the tree. -/
theorem searchAux_found_iff : ∀ t : RBT, isBST t → ∀ (v : Nat) (acc : Path),
    ((searchAux t v acc).1 = true ↔ v ∈ keys t) := by
  intro t
  induction t with
  | nil => intro _ v acc; simp [searchAux, keys]
  | node c k l r ihl ihr =>
    intro hb v acc
    obtain ⟨hkl, hkr, hbl, hbr⟩ := hb
    have hmem : v ∈ keys (RBT.node c k l r) ↔ (v ∈ keys l ∨ v = k ∨ v ∈ keys r) := by
      rw [show keys (RBT.node c k l r) = keys l ++ k :: keys r from rfl]
      simp [List.mem_append, List.mem_cons]
    rw [hmem]
    by_cases h1 : k < v
    · have hnl : v ∉ keys l := fun hc => absurd (hkl v hc) (by omega)
      have hnk : ¬ v = k := by omega
      cases r with
      | nil => simp [searchAux, h1, hnl, hnk, keys]
      | node rc rk rl rr =>
        rw [searchAux_step_right h1, ihr hbr v (acc ++ [true])]
        simp [hnl, hnk]
    · by_cases h2 : k > v
      · have hnr : v ∉ keys r := fun hc => absurd (hkr v hc) (by omega)
        have hnk : ¬ v = k := by omega
        cases l with
        | nil => simp [searchAux, h1, h2, hnr, hnk, keys]
        | node lc lk ll lr =>
          rw [searchAux_step_left h1 h2, ihl hbl v (acc ++ [false])]
          simp [hnr, hnk]
      · have hvk : v = k := by omega
        simp [searchAux, h1, h2, hvk]

theorem private_search_found_iff_mem : ∀ t : RBT, isBST t → ∀ v : Nat,
    ((private_search t v).1 = true ↔ v ∈ keys t) := by
  intro t hb v
  cases t with
  | nil => simp [private_search, keys]
  | node c k l r => exact searchAux_found_iff _ hb v []

/-- One unfolding of `private_delete_node` once the node at the path is
known. -/
theorem private_delete_node_eq (t : RBT) (p : Path) {c : Color} {k : Nat} {l r : RBT}
    (hs : subtreeAt t p = .node c k l r) :
    private_delete_node t p =
      (let replace_node := find_replace_node (.node c k l r)
       let replace_delete_black : Bool :=
         (isNil replace_node || isBlack replace_node) && isBlack (.node c k l r)
       if replace_node = .nil then
         if p = [] then .nil
         else
           let q := if replace_delete_black then adjust_double_black t p else (t, p)
           removeAt q.1 q.2
       else if isNil l || isNil r then
         if p = [] then .node c (keyOf replace_node) .nil .nil
         else
           let t1 := modifyAt t p fun _ => replace_node
           if replace_delete_black then (adjust_double_black t1 p).1
           else setColorAt t1 p .Black
       else
         private_delete_node (setKeyAt t p (keyOf replace_node))
           (p ++ false :: rightmostPath l)) := by
  rw [private_delete_node.eq_def]
  split
  · next heq => rw [hs] at heq; exact absurd heq (by simp)
  · next c' k' l' r' heq =>
    rw [hs] at heq
    injection heq with h1 h2 h3 h4
    subst h1
    subst h2
    subst h3
    subst h4
    rfl

/-- The all-Black three-node Red-Black tree (a valid Red-Black tree). -/
def t3 : RBT := .node .Black 2 (.node .Black 1 .nil .nil) (.node .Black 3 .nil .nil)

/-- A valid five-node Red-Black tree whose node 4 is Red. -/
def t5 : RBT :=
  .node .Black 2 (.node .Black 1 .nil .nil)
    (.node .Red 4 (.node .Black 3 .nil .nil) (.node .Black 5 .nil .nil))

end RB

section RBTests

open RB

unseal RB.adjust_double_black in
example : RB.adjust_double_black
      (.node .Black 2 (.node .Black 1 .nil .nil) (.node .Black 3 .nil .nil)) [false]
    = (.node .Black 2 (.node .Black 1 .nil .nil) (.node .Black 3 .nil .nil), [false]) := by
  decide

unseal RB.adjust_double_black RB.private_delete_node in
example : RB.delete
      (.node .Black 2 (.node .Black 1 .nil .nil) (.node .Black 3 .nil .nil)) 1
    = (.node .Black 2 .nil (.node .Black 3 .nil .nil), .ok) := by
  decide

unseal RB.adjust_double_black RB.private_delete_node in
example : RB.delete
      (.node .Black 2 (.node .Black 1 .nil .nil)
        (.node .Black 4 (.node .Red 3 .nil .nil) (.node .Red 5 .nil .nil))) 1
    = (.node .Black 3 (.node .Black 2 .nil .nil)
        (.node .Black 4 .nil (.node .Red 5 .nil .nil)), .ok) := by
  decide

unseal RB.adjust_double_black RB.private_delete_node in
example : RB.isValidRB
    (RB.delete (.node .Black 2 (.node .Black 1 .nil .nil)
      (.node .Black 4 (.node .Red 3 .nil .nil) (.node .Red 5 .nil .nil))) 1).1 = true := by
  decide

unseal RB.adjust_double_black RB.private_delete_node in
example : RB.delete (.node .Black 2 (.node .Red 1 .nil .nil) (.node .Red 3 .nil .nil)) 1
    = (.node .Black 2 .nil (.node .Red 3 .nil .nil), .ok) := by decide

end RBTests

unseal RB.adjust_double_black RB.private_delete_node in
/-- C2 failing input: `t3` satisfies both Red-Black invariants, `delete 3`
succeeds, yet the result has a root-to-absent-child path with 1 Black node
next to one with 2 — the fixup never restores the Black deficiency because
its two-Black-children case recolors the sibling Black instead of Red. -/
theorem C2_delete_breaks_black_height :
    RB.isValidRB RB.t3 = true ∧
    RB.delete RB.t3 3 = (.node .Black 2 (.node .Black 1 .nil .nil) .nil, .ok) ∧
    RB.blackBalanced (RB.delete RB.t3 3).1 = false := by
  refine ⟨by decide, by decide, by decide⟩

/-- C5: the Red-Black `delete` fails exactly when the tree is empty or the
search does not find the key (on a BST, exactly when the key is not among
the tree's keys); on failure the tree is returned untouched; on a found key
in a non-empty tree it succeeds. -/
theorem C5_delete_error_iff : ∀ (t : RB.RBT) (v : Nat),
    ((RB.delete t v).2 ≠ .ok ↔ (t = .nil ∨ (RB.private_search t v).1 = false)) ∧
    ((RB.delete t v).2 ≠ .ok → (RB.delete t v).1 = t) ∧
    (t ≠ .nil → (RB.private_search t v).1 = true → (RB.delete t v).2 = .ok) ∧
    (RB.isBST t → ((RB.private_search t v).1 = true ↔ v ∈ RB.keys t)) := by
  intro t v
  refine ⟨?_, ?_, ?_, fun hb => RB.private_search_found_iff_mem t hb v⟩ <;>
    cases t with
    | nil => simp [RB.delete]
    | node c k l r =>
      rcases hps : RB.private_search (.node c k l r) v with ⟨found, p⟩
      cases found <;> simp [RB.delete, hps]

/-- Witness for C5: deleting a present key succeeds; deleting an absent key
leaves the concrete tree unchanged; on this BST the search flag coincides
with key membership. -/
theorem C5_delete_error_iff_witness :
    (RB.delete (.node .Black 2 .nil .nil) 2).2 = .ok ∧
    (RB.delete (.node .Black 2 .nil .nil) 5).1 = .node .Black 2 .nil .nil ∧
    ((RB.private_search (.node .Black 2 .nil .nil) 2).1 = true ↔
      2 ∈ RB.keys (.node .Black 2 .nil .nil)) :=
  ⟨(C5_delete_error_iff (.node .Black 2 .nil .nil) 2).2.2.1 (by simp) (by decide),
   (C5_delete_error_iff (.node .Black 2 .nil .nil) 5).2.1 (by decide),
   (C5_delete_error_iff (.node .Black 2 .nil .nil) 2).2.2.2
     (by simp [RB.isBST, RB.keys])⟩

/-- C6: with two children the replacement is the rightmost descendant of the
left subtree — never chosen by height —, it has no right child, on a BST it
is the maximum of the left subtree, and `private_delete_node` overwrites the
node's key with it before recursively deleting it. -/
theorem C6_replace_is_left_rightmost :
    ∀ (c : RB.Color) (k : Nat) (l r : RB.RBT), l ≠ .nil → r ≠ .nil →
      RB.find_replace_node (.node c k l r) = RB.find_right_child l ∧
      RB.rightOf (RB.find_right_child l) = .nil ∧
      (RB.isBST (.node c k l r) → ∀ x ∈ RB.keys l, x ≤ RB.keyOf (RB.find_right_child l)) ∧
      (∀ (t : RB.RBT) (p : RB.Path), RB.subtreeAt t p = .node c k l r →
        RB.private_delete_node t p =
          RB.private_delete_node (RB.setKeyAt t p (RB.keyOf (RB.find_right_child l)))
            (p ++ false :: RB.rightmostPath l)) := by
  intro c k l r hl hr
  refine ⟨?_, RB.find_right_child_right_nil l, ?_, ?_⟩
  · cases l with
    | nil => exact absurd rfl hl
    | node lc lk ll lr =>
      cases r with
      | nil => exact absurd rfl hr
      | node rc rk rl rr => rfl
  · intro hb x hx
    exact RB.find_right_child_max l hb.2.2.1 x hx
  · intro t p hs
    cases l with
    | nil => exact absurd rfl hl
    | node lc lk ll lr =>
      cases r with
      | nil => exact absurd rfl hr
      | node rc rk rl rr =>
        rw [RB.private_delete_node_eq t p hs]
        have hne : RB.find_replace_node
            (.node c k (.node lc lk ll lr) (.node rc rk rl rr)) ≠ .nil :=
          RB.find_right_child_ne_nil (.node lc lk ll lr) (by simp)
        rw [if_neg hne]
        rfl

/-- Witness for C6 at a concrete two-children root. -/
theorem C6_replace_is_left_rightmost_witness :
    RB.private_delete_node
        (.node .Black 5 (.node .Black 3 .nil .nil) (.node .Black 7 .nil .nil)) [] =
      RB.private_delete_node
        (RB.setKeyAt (.node .Black 5 (.node .Black 3 .nil .nil) (.node .Black 7 .nil .nil)) []
          (RB.keyOf (RB.find_right_child (.node .Black 3 .nil .nil))))
        ([] ++ false :: RB.rightmostPath (.node .Black 3 .nil .nil)) :=
  (C6_replace_is_left_rightmost .Black 5 (.node .Black 3 .nil .nil) (.node .Black 7 .nil .nil)
      (by simp) (by simp)).2.2.2
    (.node .Black 5 (.node .Black 3 .nil .nil) (.node .Black 7 .nil .nil)) [] rfl

unseal RB.adjust_double_black RB.private_delete_node in
/-- C7 failing input: at the deficient left leaf of `t3` the sibling is Black
with two Black children; the source recolors it Black — a no-op, the whole
fixup returns the tree unchanged — instead of Red as the claim states, and
the enclosing delete therefore breaks the Black-count invariant. -/
theorem C7_fixup_recolors_sibling_black :
    RB.colorOf (RB.subtreeAt RB.t3 [true]) = .Black ∧
    RB.has_red_child (RB.subtreeAt RB.t3 [true]) = false ∧
    RB.adjust_double_black RB.t3 [false] = (RB.t3, [false]) ∧
    RB.delete RB.t3 1 = (.node .Black 2 .nil (.node .Black 3 .nil .nil), .ok) ∧
    RB.isValidRB RB.t3 = true ∧
    RB.isValidRB (RB.delete RB.t3 1).1 = false := by
  refine ⟨by decide, by decide, by decide, by decide, by decide, by decide⟩

unseal RB.adjust_double_black RB.private_delete_node in
/-- C8 failing input: at the deficient left leaf of `t5` the sibling (node 4)
is Red; the source recolors parent Red / sibling Black and left-rotates the
parent, but then returns at once.  The deficient node's new parent (node 2)
stays Red — a re-examination, which the claim asserts, would have hit the
two-Black-children case and recolored it Black — and the surrounding delete
leaves unequal Black counts. -/
theorem C8_red_sibling_case_stops_after_rotation :
    RB.isValidRB RB.t5 = true ∧
    RB.colorOf (RB.subtreeAt RB.t5 [true]) = .Red ∧
    RB.adjust_double_black RB.t5 [false] =
      (.node .Black 4
        (.node .Red 2 (.node .Black 1 .nil .nil) (.node .Black 3 .nil .nil))
        (.node .Black 5 .nil .nil), [false, false]) ∧
    RB.colorOf (RB.subtreeAt (RB.adjust_double_black RB.t5 [false]).1 [false]) = .Red ∧
    RB.delete RB.t5 1 =
      (.node .Black 4 (.node .Red 2 .nil (.node .Black 3 .nil .nil))
        (.node .Black 5 .nil .nil), .ok) ∧
    RB.blackBalanced (RB.delete RB.t5 1).1 = false := by
  refine ⟨by decide, by decide, by decide, by decide, by decide, by decide⟩

/-- C10: deleting the key of a root with exactly one child overwrites the
root's key with the replacement child's key and clears both child links, so
any descendants of that child are dropped (second conjunct: the grandchild
key 1 disappears). -/
theorem C10_root_one_child_discards_descendants :
    (∀ (c : RB.Color) (k : Nat) (l r : RB.RBT),
      (l ≠ .nil ∧ r = .nil) ∨ (l = .nil ∧ r ≠ .nil) →
      RB.delete (.node c k l r) k =
        (.node c (RB.keyOf (RB.find_replace_node (.node c k l r))) .nil .nil, .ok)) ∧
    RB.delete (.node .Black 5 (.node .Black 3 (.node .Black 1 .nil .nil) .nil) .nil) 5 =
      (.node .Black 3 .nil .nil, .ok) := by
  have hmain : ∀ (c : RB.Color) (k : Nat) (l r : RB.RBT),
      (l ≠ .nil ∧ r = .nil) ∨ (l = .nil ∧ r ≠ .nil) →
      RB.delete (.node c k l r) k =
        (.node c (RB.keyOf (RB.find_replace_node (.node c k l r))) .nil .nil, .ok) := by
    intro c k l r hone
    have hsearch : RB.private_search (.node c k l r) k = (true, []) := by
      show RB.searchAux (.node c k l r) k [] = (true, [])
      unfold RB.searchAux
      rw [if_neg (lt_irrefl k), if_neg (lt_irrefl k)]
    have hdel : RB.delete (.node c k l r) k =
        (RB.private_delete_node (.node c k l r) [], .ok) := by
      simp [RB.delete, hsearch]
    rw [hdel]
    rcases hone with ⟨hl, rfl⟩ | ⟨rfl, hr⟩
    · cases l with
      | nil => exact absurd rfl hl
      | node lc lk ll lr =>
        rw [RB.private_delete_node_eq (.node c k (.node lc lk ll lr) .nil) [] rfl]
        rfl
    · cases r with
      | nil => exact absurd rfl hr
      | node rc rk rl rr =>
        rw [RB.private_delete_node_eq (.node c k .nil (.node rc rk rl rr)) [] rfl]
        rfl
  refine ⟨hmain, ?_⟩
  have h := hmain .Black 5 (.node .Black 3 (.node .Black 1 .nil .nil) .nil) .nil
    (Or.inl ⟨by simp, rfl⟩)
  rw [h]
  rfl

/-- Witness for C10 at a concrete one-child root. -/
theorem C10_root_one_child_witness :
    RB.delete (.node .Black 5 (.node .Black 3 .nil .nil) .nil) 5 =
      (.node .Black
        (RB.keyOf (RB.find_replace_node (.node .Black 5 (.node .Black 3 .nil .nil) .nil)))
        .nil .nil, .ok) :=
  C10_root_one_child_discards_descendants.1 .Black 5 (.node .Black 3 .nil .nil) .nil
    (Or.inl ⟨by simp, rfl⟩)

section Tests

open AVL

example : AVL.insert (AVL.insert (AVL.insert .nil 3) 2) 1
    = .node 2 2 (.node 1 1 .nil .nil) (.node 3 1 .nil .nil) := by decide

example : AVL.insert (AVL.insert (AVL.insert .nil 1) 2) 3
    = .node 2 2 (.node 1 1 .nil .nil) (.node 3 1 .nil .nil) := by decide

example : AVL.insert (AVL.insert (AVL.insert .nil 3) 1) 2
    = .node 2 2 (.node 1 1 .nil .nil) (.node 3 1 .nil .nil) := by decide

example (a b : Int) : a ≤ max a b := by omega

example (a b : Int) (h : (a - b).natAbs ≤ 1) : b ≤ a + 1 := by omega

end Tests
